import Mathlib

/-!
Verification of the MarkOver parser and paginator.

The TypeScript source (`src/lib/markover-parser.ts`) is shallowly embedded
over `List Char`.  JavaScript regex scans are modelled by explicit
left-to-right scanners; JavaScript numbers are modelled by `Nat`/`Int`
with exact arithmetic (the single floating-point comparison
`breakPoint > contentPerPage * 0.7` is modelled by the exact rational
comparison `10 * breakPoint > 7 * contentPerPage`).
The external Markdown renderer (`marked.parse`) is an opaque parameter
`bridge : Str → Str`.
-/

namespace MarkOver

abbrev Str := List Char

/-- The single-quote character (the angle-block class-list delimiter). -/
def quoteC : Char := Char.ofNat 39

/-- The backtick character (the code-span delimiter). -/
def backtickC : Char := Char.ofNat 96

/-- JavaScript `String.trim` whitespace test (ASCII subset used here). -/
def isWS (c : Char) : Bool := c = ' ' || c = '\n' || c = '\t' || c = '\r'

/-- JavaScript `String.trim`: strip whitespace from both ends. -/
def trimList (t : Str) : Str :=
  ((t.dropWhile isWS).reverse.dropWhile isWS).reverse

/-- Index of the first occurrence of character `c`, as in `String.indexOf`. -/
def firstIdxOf (c : Char) : Str → Option Nat
  | [] => none
  | d :: ds => if d = c then some 0 else (firstIdxOf c ds).map (· + 1)

/-- `pat` occurs in `t` starting at index `i`. -/
def occursAt (pat t : Str) (i : Nat) : Bool := pat.isPrefixOf (t.drop i)

/-- Index of the first occurrence of `pat` in `t`, as in `String.indexOf`. -/
def firstOccur (pat : Str) : Str → Option Nat
  | [] => if pat.isPrefixOf ([] : Str) then some 0 else none
  | c :: cs => if pat.isPrefixOf (c :: cs) then some 0 else (firstOccur pat cs).map (· + 1)

/-- `t` contains `pat` as a substring, as in `String.includes`. -/
def hasInfixB (pat t : Str) : Bool := (firstOccur pat t).isSome

/-- Index of the last occurrence of `pat` in `t`, `-1` if absent, as in
`String.lastIndexOf`. -/
def lastOccur (pat t : Str) : Int :=
  ((List.range (t.length + 1)).filter (fun i => pat.isPrefixOf (t.drop i))).foldl
    (fun a i => max a (Int.ofNat i)) (-1)

/-! ## Height estimation (`estimateContentHeight`)

Each regex `<X[^>]*>` of the source is modelled by a head matcher (the
fixed part before `[^>]*`) plus a scan to the first `>`; matches are
counted left to right, non-overlapping, exactly as a JavaScript global
regex does. -/

/-- Head of `/<h[1-6][^>]*>/`. -/
def hHead : Str → Option Nat
  | '<' :: 'h' :: c :: _ => if '1' ≤ c ∧ c ≤ '6' then some 3 else none
  | _ => none

/-- Head of `/<p[^>]*>/` (note: this also matches `<pre…>`). -/
def pHead (s : Str) : Option Nat :=
  match s with
  | a :: b :: _ => if a = '<' ∧ b = 'p' then some 2 else none
  | _ => none

/-- Head of `/<(ul|ol)[^>]*>/`. -/
def ulolHead : Str → Option Nat
  | '<' :: c :: 'l' :: _ => if c = 'u' ∨ c = 'o' then some 3 else none
  | _ => none

/-- Head of `/<img[^>]*>/`. -/
def imgHead : Str → Option Nat
  | '<' :: 'i' :: 'm' :: 'g' :: _ => some 4
  | _ => none

/-- Head of `/<pre[^>]*>/`. -/
def preHead : Str → Option Nat
  | '<' :: 'p' :: 'r' :: 'e' :: _ => some 4
  | _ => none

/-- Head of `/<blockquote[^>]*>/`. -/
def bqHead : Str → Option Nat
  | '<' :: 'b' :: 'l' :: 'o' :: 'c' :: 'k' :: 'q' :: 'u' :: 'o' :: 't' :: 'e' :: _ => some 11
  | _ => none

/-- Length of a full `<X[^>]*>` match at the start of `s`: the head plus a
greedy run of non-`>` characters plus the closing `>`. -/
def matchLenAt (head : Str → Option Nat) (s : Str) : Option Nat :=
  match head s with
  | none => none
  | some k =>
    match firstIdxOf '>' (s.drop k) with
    | none => none
    | some q => some (k + q + 1)

/-- Scanner for the non-overlapping left-to-right matches of the regex
described by `head`, as produced by `html.match(.../g)`.  The `fuel`
argument only makes the recursion structural: every step consumes at
least one character (`max m 1` guards this; every head yields `m ≥ 2`),
so `fuel = t.length` never runs out. -/
def countMatchesAux (head : Str → Option Nat) : Nat → Str → Nat
  | _, [] => 0
  | 0, _ :: _ => 0
  | fuel + 1, c :: cs =>
    match matchLenAt head (c :: cs) with
    | some m => 1 + countMatchesAux head fuel ((c :: cs).drop (max m 1))
    | none => countMatchesAux head fuel cs

/-- Number of matches of the regex described by `head` in `t`. -/
def countMatches (head : Str → Option Nat) (t : Str) : Nat :=
  countMatchesAux head t.length t

/-- `estimateContentHeight` from the source: weighted regex-match counts
plus the base offset 200. -/
def estimateContentHeight (html : Str) : Nat :=
  countMatches hHead html * 40 + countMatches pHead html * 60 +
    countMatches ulolHead html * 100 + countMatches imgHead html * 200 +
    countMatches preHead html * 150 + countMatches bqHead html * 80 + 200

/-! ## Pagination (`splitIntoPages`, `getPageCount`) -/

/-- `Math.ceil(a / b)` for positive integers. -/
def ceilDiv (a b : Nat) : Nat := (a + b - 1) / b

/-- `pagesNeeded = Math.max(1, Math.ceil(estimatedContentHeight / pageHeight))`. -/
def pagesNeeded (html : Str) (pageHeight : Nat) : Nat :=
  max 1 (ceilDiv (estimateContentHeight html) pageHeight)

/-- `contentPerPage = Math.ceil(html.length / pagesNeeded)`. -/
def shareOf (html : Str) (pageHeight : Nat) : Nat :=
  ceilDiv html.length (pagesNeeded html pageHeight)

/-- The naive slice `html.slice(i*share, min((i+1)*share, len))` for page `i`. -/
def naiveSlice (html : Str) (pageHeight : Nat) (i : Nat) : Str :=
  (html.drop (i * shareOf html pageHeight)).take
    (min (i * shareOf html pageHeight + shareOf html pageHeight) html.length -
      i * shareOf html pageHeight)

/-- `breakPoint`: maximum of the five `lastIndexOf` probes of the source. -/
def breakPointOf (pc : Str) : Int :=
  max (max (max (max (lastOccur ['<', '/'] pc) (lastOccur "</p>".toList pc))
    (lastOccur "</h".toList pc)) (lastOccur "</ul>".toList pc))
    (lastOccur "</ol>".toList pc)

/-- Whether the source truncates ("snaps") page `i`: it is not the last
page, the naive end is strictly inside the html, and the break point lies
beyond 70% of the per-page share. -/
def snapAt (html : Str) (pageHeight : Nat) (i : Nat) : Bool :=
  decide (i < pagesNeeded html pageHeight - 1) &&
    decide (min (i * shareOf html pageHeight + shareOf html pageHeight) html.length <
      html.length) &&
    decide ((10 : Int) * breakPointOf (naiveSlice html pageHeight i) >
      7 * (shareOf html pageHeight : Int))

/-- Page `i` of the multi-page split: the naive slice, truncated at
`breakPoint + 4` when the snap condition holds. -/
def pageFor (html : Str) (pageHeight : Nat) (i : Nat) : Str :=
  if snapAt html pageHeight i then
    (naiveSlice html pageHeight i).take
      ((breakPointOf (naiveSlice html pageHeight i)).toNat + 4)
  else naiveSlice html pageHeight i

/-- `splitIntoPages` from the source. -/
def splitIntoPages (html : Str) (pageHeight : Nat) : List Str :=
  if trimList html = [] then [[]]
  else if pagesNeeded html pageHeight = 1 then [html]
  else (List.range (pagesNeeded html pageHeight)).map (pageFor html pageHeight)

/-- `getPageCount` from the source. -/
def getPageCount (html : Str) (pageHeight : Nat) : Nat :=
  (splitIntoPages html pageHeight).length

/-! ## The MarkOver block parser

The angle-block syntax is `<>` followed by a single-quoted class list,
closed by `</>`.  String literals cannot carry the quote and backtick
delimiters here, so they are written via `quoteC` and `backtickC`. -/

/-- The opening-marker prefix, the three characters before the class list. -/
def openerPat : Str := ['<', '>', quoteC]

/-- The closing marker (three characters). -/
def closerPat : Str := ['<', '/', '>']

/-- The rendered container's opening-tag prefix, as searched for by
`splitByDivsAndProcessMarkdown`. -/
def divMarker : Str := "<div class=\"".toList

/-- The `<div` probe of `findMatchingDivEnd`. -/
def divOpenPat : Str := "<div".toList

/-- The `</div>` probe of `findMatchingDivEnd`. -/
def divClosePat : Str := "</div>".toList

/-- First match of the Matcher's opener regex `<>` quote `[^']*` quote:
position and total length.  A position whose `<>'` prefix has no later
quote does not match and the scan moves one character on, exactly as a
JavaScript regex engine does. -/
def searchOpener : Str → Option (Nat × Nat)
  | [] => none
  | c :: cs =>
    if openerPat.isPrefixOf (c :: cs) then
      match firstIdxOf quoteC ((c :: cs).drop 3) with
      | some q => some (0, 3 + q + 1)
      | none => (searchOpener cs).map (fun pl => (pl.1 + 1, pl.2))
    else (searchOpener cs).map (fun pl => (pl.1 + 1, pl.2))

/-- First match of the Processor's opener regex `<>` quote `[^']+` quote
(non-empty class-list payload): position and total length. -/
def searchOpenerPlus : Str → Option (Nat × Nat)
  | [] => none
  | c :: cs =>
    if openerPat.isPrefixOf (c :: cs) then
      match firstIdxOf quoteC ((c :: cs).drop 3) with
      | some q =>
        if q = 0 then (searchOpenerPlus cs).map (fun pl => (pl.1 + 1, pl.2))
        else some (0, 3 + q + 1)
      | none => (searchOpenerPlus cs).map (fun pl => (pl.1 + 1, pl.2))
    else (searchOpenerPlus cs).map (fun pl => (pl.1 + 1, pl.2))

/-- One iteration of `findMatchingClosingTag`'s scan loop: either the next
state `(i, depth)` or the final answer (`some` closer index or `none` for
NoMatch, the source's `-1`). -/
def fmctStep (t : Str) (i depth : Nat) : (Nat × Nat) ⊕ Option Nat :=
  if i < t.length ∧ 0 < depth then
    match searchOpener (t.drop i), firstOccur closerPat (t.drop i) with
    | some (op, ol), some cm =>
      if op < cm then Sum.inl (i + op + ol, depth + 1)
      else if depth = 1 then Sum.inr (some (i + cm))
      else Sum.inl (i + cm + 4, depth - 1)
    | some (op, ol), none => Sum.inl (i + op + ol, depth + 1)
    | none, some cm =>
      if depth = 1 then Sum.inr (some (i + cm))
      else Sum.inl (i + cm + 4, depth - 1)
    | none, none => Sum.inr none
  else Sum.inr none

/-- The scan loop of `findMatchingClosingTag`, with fuel making the
recursion structural; `none` is fuel exhaustion. -/
def fmctLoop (t : Str) : Nat → Nat → Nat → Option (Option Nat)
  | 0, _, _ => none
  | fuel + 1, i, depth =>
    match fmctStep t i depth with
    | Sum.inr r => some r
    | Sum.inl (i', d') => fmctLoop t fuel i' d'

/-- `findMatchingClosingTag` over the suffix model: scan from index `i`
(just past the opener) at depth 1.  Fuel `t.length + 1` provably
suffices because the scan index strictly increases (theorem
`c5_matcher_termination`). -/
def findMatchingClosingTag (t : Str) (i : Nat) : Option Nat :=
  (fmctLoop t (t.length + 1) i 1).getD none

/-- Length of the lazy `[\s\S]*?` stretch of the recovery regex: smallest
extent whose following position starts an opener, a closer, or is the end
of the text. -/
def lazyScanLen : Str → Nat
  | [] => 0
  | c :: cs =>
    if openerPat.isPrefixOf (c :: cs) ∨ closerPat.isPrefixOf (c :: cs) then 0
    else 1 + lazyScanLen cs

/-- Length of a match of the recovery regex
`<>` quote `[^']*` quote `[\s\S]*?` (lookahead: opener, closer or end)
at the start of `t`, if any. -/
def stripHeadMatch (t : Str) : Option Nat :=
  if openerPat.isPrefixOf t then
    match firstIdxOf quoteC (t.drop 3) with
    | some q => some (3 + q + 1 + lazyScanLen (t.drop (3 + q + 1)))
    | none => none
  else none

/-- The recovery pass `result.replace(/<>'[^']*'[\s\S]*?(?=<>'|<\/>|$)/g, "")`.
Fuel makes the recursion structural; `t.length` suffices since every step
consumes at least one character. -/
def stripAngleAux : Nat → Str → Str
  | 0, t => t
  | fuel + 1, t =>
    match t with
    | [] => []
    | c :: cs =>
      match stripHeadMatch (c :: cs) with
      | some m => stripAngleAux fuel ((c :: cs).drop (max m 1))
      | none => c :: stripAngleAux fuel cs

/-- The recovery pass that strips unresolved angle blocks. -/
def stripAngle (t : Str) : Str := stripAngleAux t.length t

/-- `replace(pat, "")` for a literal pattern, used for the orphan-closer
pass `result.replace(/<\/>/g, "")`. -/
def removeAll (pat : Str) : Nat → Str → Str
  | 0, t => t
  | fuel + 1, t =>
    match t with
    | [] => []
    | c :: cs =>
      if pat.isPrefixOf (c :: cs) then removeAll pat fuel ((c :: cs).drop (max pat.length 1))
      else c :: removeAll pat fuel cs

/-- The orphan-closer removal pass. -/
def removeClosers (t : Str) : Str := removeAll closerPat t.length t

/-! ## Code Guard (`protectCodeBlocks` / `restoreCodeBlocks`) -/

def inlinePre : Str := "__INLINE_CODE_".toList

def fencedPre : Str := "__FENCED_CODE_".toList

def tripleTick : Str := [backtickC, backtickC, backtickC]

/-- The inline pass of `protectCodeBlocks`: replace each match of the
regex backtick `[^`]+` backtick by `__INLINE_CODE_n__`, appending the
match to the table; `n` is the table length at replacement time. -/
def protectInlineAux : Nat → Str → List Str → Str × List Str
  | 0, t, tbl => (t, tbl)
  | fuel + 1, t, tbl =>
    match t with
    | [] => ([], tbl)
    | c :: cs =>
      if c = backtickC then
        match firstIdxOf backtickC cs with
        | none => (c :: cs, tbl)
        | some q =>
          if q = 0 then
            let r := protectInlineAux fuel cs tbl
            (c :: r.1, r.2)
          else
            let matched := c :: cs.take (q + 1)
            let ph := inlinePre ++ Nat.toDigits 10 tbl.length ++ ['_', '_']
            let r := protectInlineAux fuel (cs.drop (q + 1)) (tbl ++ [matched])
            (ph ++ r.1, r.2)
      else
        let r := protectInlineAux fuel cs tbl
        (c :: r.1, r.2)

/-- The fenced pass of `protectCodeBlocks`: replace each match of the lazy
regex ``` `[\s\S]*?` ``` by `__FENCED_CODE_n__`. -/
def protectFencedAux : Nat → Str → List Str → Str × List Str
  | 0, t, tbl => (t, tbl)
  | fuel + 1, t, tbl =>
    match t with
    | [] => ([], tbl)
    | c :: cs =>
      if tripleTick.isPrefixOf (c :: cs) then
        match firstOccur tripleTick ((c :: cs).drop 3) with
        | some q =>
          let matched := (c :: cs).take (3 + q + 3)
          let ph := fencedPre ++ Nat.toDigits 10 tbl.length ++ ['_', '_']
          let r := protectFencedAux fuel ((c :: cs).drop (3 + q + 3)) (tbl ++ [matched])
          (ph ++ r.1, r.2)
        | none =>
          let r := protectFencedAux fuel cs tbl
          (c :: r.1, r.2)
      else
        let r := protectFencedAux fuel cs tbl
        (c :: r.1, r.2)

/-- `protectCodeBlocks`: inline spans first, then fenced spans, sharing
one placeholder table. -/
def protectCodeBlocks (t : Str) : Str × List Str :=
  let p1 := protectInlineAux t.length t []
  protectFencedAux p1.1.length p1.1 p1.2

def isDigitC (c : Char) : Bool := decide ('0' ≤ c ∧ c ≤ '9')

/-- `parseInt` on a digit string. -/
def digitsToNat (ds : Str) : Nat := ds.foldl (fun a c => a * 10 + (c.toNat - 48)) 0

/-- The replacement text for a placeholder match at the start of `t`: the
table entry at the parsed index; a missing (`undefined`) or empty (falsy)
entry keeps the placeholder text, as `codeBlocks[parseInt(index)] || match`
does. -/
def restorePiece (pre : Str) (tbl : List Str) (t : Str) : Str :=
  match tbl.get? (digitsToNat ((t.drop pre.length).takeWhile isDigitC)) with
  | some e =>
    if e = [] then t.take (pre.length + ((t.drop pre.length).takeWhile isDigitC).length + 2)
    else e
  | none => t.take (pre.length + ((t.drop pre.length).takeWhile isDigitC).length + 2)

/-- One restoration pass: replace each placeholder `pre` `\d+` `__` by
`restorePiece`. -/
def restoreAux (pre : Str) (tbl : List Str) : Nat → Str → Str
  | 0, t => t
  | fuel + 1, t =>
    match t with
    | [] => []
    | c :: cs =>
      if pre.isPrefixOf (c :: cs) then
        if ((c :: cs).drop pre.length).takeWhile isDigitC ≠ [] ∧
            ['_', '_'].isPrefixOf
              (((c :: cs).drop pre.length).drop
                (((c :: cs).drop pre.length).takeWhile isDigitC).length) then
          restorePiece pre tbl (c :: cs) ++
            restoreAux pre tbl fuel
              ((c :: cs).drop
                (pre.length + (((c :: cs).drop pre.length).takeWhile isDigitC).length + 2))
        else c :: restoreAux pre tbl fuel cs
      else c :: restoreAux pre tbl fuel cs

/-- `restoreCodeBlocks`: inline placeholders first, then fenced ones. -/
def restoreCodeBlocks (t : Str) (tbl : List Str) : Str :=
  restoreAux fencedPre tbl (restoreAux inlinePre tbl t.length t).length
    (restoreAux inlinePre tbl t.length t)

/-! ## Block Processor (`processAngleBlocks` / `processAllBlocks`) -/

/-- The emitted container opening tag `<div class="…">`. -/
def divOpen (cls : Str) : Str := divMarker ++ cls ++ "\">".toList

/-- `processAngleBlocks`: resolve the first angle block, if its closer is
found.  `recurse` is the recursive `processAllBlocks` call applied to the
block's content (passed as a parameter to keep the recursion structural);
`bridge` is the external `marked.parse`.  Note the source's `endIndex =
closingIndex + 4` although the closer is three characters, so one extra
character after `</>` is dropped. -/
def processAngleBlocks (bridge recurse : Str → Str) (t : Str) : Str :=
  match searchOpenerPlus t with
  | none => t
  | some (p, l) =>
    match findMatchingClosingTag t (p + l) with
    | none => t
    | some ci =>
      t.take p ++ divOpen (trimList ((t.drop (p + 3)).take (l - 4))) ++
        bridge (recurse ((t.drop (p + l)).take (ci - (p + l)))) ++
        divClosePat ++ t.drop (ci + 4)

/-- The `while (hasChanges && iterations < maxIterations)` loop: apply
`step` until it makes no change or `k` iterations have run. -/
def angleLoop (step : Str → Str) : Nat → Str → Str
  | 0, r => r
  | k + 1, r =>
    if step r = r then r else angleLoop step k (step r)

/-- `processAllBlocks`: protect code, resolve angle blocks for up to 20
passes, strip unresolved syntax if any `<>'` remains, restore code.
The fuel bounds the nesting-recursion depth (the source has no such bound
and can recurse indefinitely for an adversarial bridge); `t.length + 1`
is used at every entry point and suffices for all theorems here. -/
def processAllBlocks (bridge : Str → Str) : Nat → Str → Str
  | 0, t => t
  | fuel + 1, t =>
    let pt := protectCodeBlocks t
    let r := angleLoop (processAngleBlocks bridge (processAllBlocks bridge fuel)) 20 pt.1
    restoreCodeBlocks
      (if hasInfixB openerPat r then removeClosers (stripAngle r) else r) pt.2

/-! ## Markdown-outside-divs splitting -/

/-- The scan loop of `findMatchingDivEnd`: at relative index `i` with the
current depth, find the next `<div` and `</div>`; an opener bumps the
depth and skips 4, a closer decrements and returns its index when the
depth reaches 0, else skips 6.  Depth is an integer exactly as in the
source.  Fuel (`none` = exhaustion) makes this structural; the scan index
strictly increases so `t.length + 1` suffices. -/
def findDivEndLoop (t : Str) : Nat → Nat → Int → Option Nat
  | 0, _, _ => none
  | fuel + 1, i, depth =>
    match firstOccur divOpenPat (t.drop i), firstOccur divClosePat (t.drop i) with
    | none, none => none
    | some dS, none => findDivEndLoop t fuel (i + dS + 4) (depth + 1)
    | some dS, some dE =>
      if dS < dE then findDivEndLoop t fuel (i + dS + 4) (depth + 1)
      else if depth - 1 = 0 then some (i + dE)
      else findDivEndLoop t fuel (i + dE + 6) (depth - 1)
    | none, some dE =>
      if depth - 1 = 0 then some (i + dE)
      else findDivEndLoop t fuel (i + dE + 6) (depth - 1)

/-- `findMatchingDivEnd` over the suffix starting at the div marker. -/
def findMatchingDivEnd (t : Str) : Option Nat :=
  findDivEndLoop t (t.length + 1) 0 0

/-- `splitByDivsAndProcessMarkdown`: copy each balanced
`<div class="…">…</div>` region verbatim and bridge the non-div spans
(when non-blank).  Fuel makes the recursion structural; each round
consumes at least the marker, so `t.length + 1` suffices. -/
def splitByDivsAux (bridge : Str → Str) : Nat → Str → Str
  | 0, t => t
  | fuel + 1, t =>
    match firstOccur divMarker t with
    | none => if trimList t = [] then [] else bridge t
    | some idx =>
      (if trimList (t.take idx) = [] then [] else bridge (t.take idx)) ++
        match findMatchingDivEnd (t.drop idx) with
        | none => if trimList (t.drop idx) = [] then [] else bridge (t.drop idx)
        | some j =>
          (t.drop idx).take (j + 6) ++
            splitByDivsAux bridge fuel ((t.drop idx).drop (j + 6))

def splitByDivsAndProcessMarkdown (bridge : Str → Str) (t : Str) : Str :=
  splitByDivsAux bridge (t.length + 1) t

/-- A segment of the div partitioning: a plain-text span, a balanced div
region, or the broken tail after a div marker with no matching close. -/
inductive Seg where
  | plain (s : Str)
  | divPart (s : Str)
  | broken (s : Str)
deriving DecidableEq

def isBroken : Seg → Bool
  | .broken _ => true
  | _ => false

/-- The raw text of a segment. -/
def rawSeg : Seg → Str
  | .plain s => s
  | .divPart s => s
  | .broken s => s

/-- How `splitByDivsAndProcessMarkdown` emits a segment: div regions
verbatim, other spans bridged when non-blank. -/
def renderSeg (bridge : Str → Str) : Seg → Str
  | .plain s => if trimList s = [] then [] else bridge s
  | .divPart s => s
  | .broken s => if trimList s = [] then [] else bridge s

/-- The segmentation computed by the same scan as `splitByDivsAux`. -/
def segmentDivsAux : Nat → Str → List Seg
  | 0, t => [Seg.plain t]
  | fuel + 1, t =>
    match firstOccur divMarker t with
    | none => [Seg.plain t]
    | some idx =>
      Seg.plain (t.take idx) ::
        match findMatchingDivEnd (t.drop idx) with
        | none => [Seg.broken (t.drop idx)]
        | some j =>
          Seg.divPart ((t.drop idx).take (j + 6)) ::
            segmentDivsAux fuel ((t.drop idx).drop (j + 6))

def segmentDivs (t : Str) : List Seg := segmentDivsAux (t.length + 1) t

/-- `MarkOverParser.parse`: blank input short-circuits to the empty
string; otherwise resolve all blocks then process Markdown outside divs. -/
def parse (bridge : Str → Str) (t : Str) : Str :=
  if trimList t = [] then []
  else splitByDivsAndProcessMarkdown bridge (processAllBlocks bridge (t.length + 1) t)

/-- A placeholder pattern (`pre` `\d+` `__`) sits at the start of `t`. -/
def phAt (pre : Str) (t : Str) : Bool :=
  pre.isPrefixOf t &&
    decide ((t.drop pre.length).takeWhile isDigitC ≠ []) &&
    ['_', '_'].isPrefixOf
      ((t.drop pre.length).drop ((t.drop pre.length).takeWhile isDigitC).length)

/-- `t` contains a substring matching `__INLINE_CODE_\d+__` or
`__FENCED_CODE_\d+__`. -/
def containsPH (t : Str) : Bool :=
  (List.range (t.length + 1)).any
    (fun i => phAt inlinePre (t.drop i) || phAt fencedPre (t.drop i))

/-- Modelled from the claim's words for comparison: a true paragraph
opening tag is `<p` immediately followed by `>` or whitespace (unlike the
source regex `<p[^>]*>`, which also matches `<pre…>`). -/
def pStrictHead (s : Str) : Option Nat :=
  match s with
  | a :: b :: c :: _ =>
    if a = '<' ∧ b = 'p' ∧ (c = '>' ∨ isWS c = true) then some 2 else none
  | _ => none

/-- The height formula exactly as the claim states it: 40 per heading tag,
60 per (true) paragraph tag, 100 per ul/ol tag, 200 per img tag, 150 per
pre tag, 80 per blockquote tag, plus 200. -/
def estimateContentHeightSpec (html : Str) : Nat :=
  countMatches hHead html * 40 + countMatches pStrictHead html * 60 +
    countMatches ulolHead html * 100 + countMatches imgHead html * 200 +
    countMatches preHead html * 150 + countMatches bqHead html * 80 + 200

/-- Every occurrence of `<p` in `html` starts a true paragraph opening tag
(third character `>` or whitespace). -/
def pLooseIsStrict (html : Str) : Bool :=
  (List.range (html.length + 1)).all
    (fun i => !(pHead (html.drop i)).isSome || (pStrictHead (html.drop i)).isSome)

/-! ## Helper lemmas -/

theorem est_base_le (html : Str) : 200 ≤ estimateContentHeight html := by
  unfold estimateContentHeight; omega

theorem ceilDiv_eq_one {a b : Nat} (h1 : 1 ≤ a) (h2 : a ≤ b) : ceilDiv a b = 1 := by
  have hb : 0 < b := lt_of_lt_of_le h1 h2
  have h4 : 1 ≤ (a + b - 1) / b := (Nat.le_div_iff_mul_le hb).2 (by omega)
  have h5 : (a + b - 1) / b < 2 := (Nat.div_lt_iff_lt_mul hb).2 (by omega)
  unfold ceilDiv; omega

theorem le_mul_ceilDiv {a b : Nat} (hb : 0 < b) : a ≤ b * ceilDiv a b := by
  have e := Nat.div_add_mod (a + b - 1) b
  have h2 : (a + b - 1) % b < b := Nat.mod_lt _ hb
  unfold ceilDiv; omega

theorem take_isPref (n : Nat) (l : Str) : l.take n <+: l :=
  ⟨l.drop n, List.take_append_drop n l⟩

theorem take_isPref_take {m n : Nat} (l : Str) (h : m ≤ n) : l.take m <+: l.take n := by
  have e : l.take m = (l.take n).take m := by
    rw [List.take_take, Nat.min_eq_left h]
  rw [e]
  exact take_isPref m _

theorem pagesNeeded_pos (html : Str) (u : Nat) : 0 < pagesNeeded html u := by
  unfold pagesNeeded; omega

theorem pHead_some {s : Str} {k : Nat} (h : pHead s = some k) : k = 2 := by
  rcases s with _ | ⟨a, _ | ⟨b, s⟩⟩ <;> simp [pHead] at h
  exact h.2.symm

theorem pStrict_imp {s : Str} {k : Nat} (h : pStrictHead s = some k) :
    pHead s = some 2 ∧ k = 2 := by
  rcases s with _ | ⟨a, _ | ⟨b, _ | ⟨c, s⟩⟩⟩ <;> simp [pStrictHead] at h
  obtain ⟨⟨ha, hb, _⟩, hk⟩ := h
  subst ha
  subst hb
  exact ⟨by simp [pHead], hk.symm⟩

theorem pStrict_none {s : Str} (h : pHead s = none) : pStrictHead s = none := by
  cases hp : pStrictHead s with
  | none => rfl
  | some k =>
    have := (pStrict_imp hp).1
    rw [this] at h
    simp at h

theorem countMatchesAux_pEq :
    ∀ (fuel : Nat) (t : Str),
      (∀ i, (pHead (t.drop i)).isSome = true → (pStrictHead (t.drop i)).isSome = true) →
      countMatchesAux pHead fuel t = countMatchesAux pStrictHead fuel t := by
  intro fuel
  induction fuel with
  | zero =>
    intro t _
    cases t <;> rfl
  | succ n ih =>
    intro t H
    cases t with
    | nil => rfl
    | cons c cs =>
      have hm : matchLenAt pHead (c :: cs) = matchLenAt pStrictHead (c :: cs) := by
        unfold matchLenAt
        cases hp : pHead (c :: cs) with
        | none => rw [pStrict_none hp]
        | some k =>
          have hk2 : k = 2 := pHead_some hp
          have h0 := H 0
          simp only [List.drop_zero] at h0
          have hss : (pStrictHead (c :: cs)).isSome = true := h0 (by rw [hp]; rfl)
          obtain ⟨k', hk'⟩ := Option.isSome_iff_exists.mp hss
          have hsp := pStrict_imp hk'
          rw [hk', hsp.2, hk2]
      cases hml : matchLenAt pStrictHead (c :: cs) with
      | none =>
        have hml2 : matchLenAt pHead (c :: cs) = none := hm.trans hml
        simp only [countMatchesAux, hml, hml2]
        exact ih cs (fun i hh => by have := H (i + 1); simpa using this hh)
      | some m =>
        have hml2 : matchLenAt pHead (c :: cs) = some m := hm.trans hml
        simp only [countMatchesAux, hml, hml2]
        congr 1
        apply ih
        intro i
        rw [List.drop_drop]
        exact H _

theorem pLooseIsStrict_spec {html : Str} (h : pLooseIsStrict html = true) :
    ∀ i, (pHead (html.drop i)).isSome = true →
      (pStrictHead (html.drop i)).isSome = true := by
  intro i hi
  by_cases hle : i ≤ html.length
  · have h2 := List.all_eq_true.mp h i (List.mem_range.mpr (by omega))
    rw [hi] at h2
    simpa using h2
  · have hd : html.drop i = [] := List.drop_eq_nil_of_le (by omega)
    rw [hd] at hi
    simp [pHead] at hi

/-! ## Claim theorems: paginator (C1, C6, C7, C10) -/

/-- C6 counterexample: the source counts `<pre>` both as a paragraph
(regex `<p[^>]*>`) and as a code block, so `estimateContentHeight "<pre>"`
is 410, not the 150 + 200 = 350 the claimed formula yields. -/
theorem c6_height_counterexample :
    estimateContentHeight "<pre>".toList = 410 ∧
      estimateContentHeightSpec "<pre>".toList = 350 ∧
      estimateContentHeight "<pre>".toList ≠ estimateContentHeightSpec "<pre>".toList := by
  decide

/-- C6 (amended): the claimed weighted-sum formula is exact provided every
occurrence of `<p` in the html starts a true paragraph opening tag (third
character `>` or whitespace); in general the paragraph term counts every
tag whose name merely begins with `p`, such as `<pre>`. -/
theorem c6_height_amended (html : Str) (h : pLooseIsStrict html = true) :
    estimateContentHeight html = estimateContentHeightSpec html := by
  unfold estimateContentHeight estimateContentHeightSpec countMatches
  have := countMatchesAux_pEq html.length html (pLooseIsStrict_spec h)
  omega

/-- Witness for C6 at a concrete html with headings and true paragraphs. -/
theorem c6_height_amended_witness :
    estimateContentHeight "<p>x</p><h1>t</h1>".toList =
      estimateContentHeightSpec "<p>x</p><h1>t</h1>".toList :=
  c6_height_amended "<p>x</p><h1>t</h1>".toList (by decide)

/-- C7: for positive pageUnit, `getPageCount` is at least 1, and equals 1
whenever the estimated content height is at most the pageUnit. -/
theorem c7_page_count_floor (html : Str) (u : Nat) (hu : 0 < u) :
    1 ≤ getPageCount html u ∧
      (estimateContentHeight html ≤ u → getPageCount html u = 1) := by
  unfold getPageCount
  by_cases h1 : trimList html = []
  · simp [splitIntoPages, h1]
  · by_cases h2 : pagesNeeded html u = 1
    · simp [splitIntoPages, h1, h2]
    · constructor
      · have := pagesNeeded_pos html u
        simp [splitIntoPages, h1, h2]
        omega
      · intro hle
        exfalso
        apply h2
        unfold pagesNeeded
        rw [ceilDiv_eq_one (le_trans (by norm_num) (est_base_le html)) hle]
        simp

/-- Witness for C7 at html `"hi"`, pageUnit 1123. -/
theorem c7_page_count_floor_witness :
    1 ≤ getPageCount "hi".toList 1123 ∧
      (estimateContentHeight "hi".toList ≤ 1123 → getPageCount "hi".toList 1123 = 1) :=
  c7_page_count_floor "hi".toList 1123 (by decide)

/-- C10: every fragment produced by `splitIntoPages` is a prefix of the
naive share-sized slice starting at character index `i * share`; snapping
only ever shortens a fragment's end, never moves its start. -/
theorem c10_fragment_aligned (html : Str) (u : Nat) (hu : 0 < u) (i : Nat)
    (hi : i < (splitIntoPages html u).length) :
    (splitIntoPages html u).get ⟨i, hi⟩ <+:
      (html.drop (i * shareOf html u)).take (shareOf html u) := by
  by_cases h1 : trimList html = []
  · have hi' : i < 1 := by simpa [splitIntoPages, h1] using hi
    have hiz : i = 0 := by omega
    subst hiz
    simp [splitIntoPages, h1]
  · by_cases h2 : pagesNeeded html u = 1
    · have hi' : i < 1 := by simpa [splitIntoPages, h1, h2] using hi
      have hiz : i = 0 := by omega
      subst hiz
      have hs : shareOf html u = html.length := by
        unfold shareOf
        rw [h2]
        simp [ceilDiv]
      simp [splitIntoPages, h1, h2, hs]
    · have hg : (splitIntoPages html u).get ⟨i, hi⟩ = pageFor html u i := by
        simp [splitIntoPages, h1, h2]
      rw [hg]
      have hslice : naiveSlice html u i <+:
          (html.drop (i * shareOf html u)).take (shareOf html u) := by
        unfold naiveSlice
        apply take_isPref_take
        have := Nat.min_le_left (i * shareOf html u + shareOf html u) html.length
        omega
      unfold pageFor
      split
      · exact (take_isPref _ _).trans hslice
      · exact hslice

/-- Witness for C10 at html `"ab"`, pageUnit 1123, page 0. -/
theorem c10_fragment_aligned_witness :
    (splitIntoPages "ab".toList 1123).get ⟨0, by decide⟩ <+:
      (("ab".toList).drop (0 * shareOf "ab".toList 1123)).take (shareOf "ab".toList 1123) :=
  c10_fragment_aligned "ab".toList 1123 (by decide) 0 (by decide)

theorem flatten_naiveSlices (html : Str) (u : Nat) :
    ∀ m, (List.map (naiveSlice html u) (List.range m)).flatten
      = html.take (min (m * shareOf html u) html.length) := by
  intro m
  induction m with
  | zero => simp
  | succ m ih =>
    rw [List.range_succ, List.map_append, List.flatten_append]
    simp only [List.map_cons, List.map_nil, List.flatten_cons, List.flatten_nil,
      List.append_nil]
    rw [ih]
    unfold naiveSlice
    have hsm : (m + 1) * shareOf html u = m * shareOf html u + shareOf html u := by
      ring
    by_cases hs : html.length ≤ m * shareOf html u
    · have e1 : min (m * shareOf html u) html.length = html.length := by omega
      have e3 : min (m * shareOf html u + shareOf html u) html.length -
          m * shareOf html u = 0 := by omega
      have e2 : min ((m + 1) * shareOf html u) html.length = html.length := by omega
      rw [e1, e2, e3]
      simp
    · have e1 : min (m * shareOf html u) html.length = m * shareOf html u := by omega
      rw [e1, ← List.take_add]
      congr 1
      have h4 := Nat.min_le_left (m * shareOf html u + shareOf html u) html.length
      have h5 : m * shareOf html u ≤
          min (m * shareOf html u + shareOf html u) html.length := by omega
      omega

/-- C1 counterexample: at html
`<p>aaaaaaaaaaaa</p>Z<p>bbbbbbbbbbbbb</p>` with pageUnit 300 the split
snaps the first page at the `</p>` boundary and drops the character `Z`,
so the concatenation of the fragments differs from the input. -/
theorem c1_roundtrip_counterexample :
    (splitIntoPages "<p>aaaaaaaaaaaa</p>Z<p>bbbbbbbbbbbbb</p>".toList 300).flatten ≠
      "<p>aaaaaaaaaaaa</p>Z<p>bbbbbbbbbbbbb</p>".toList := by
  decide

/-- C1 (amended): the concatenation of the fragments equals the input
whenever no page boundary is snapped (in particular whenever the estimated
height is at most the pageUnit) and the input has non-whitespace content;
a snapped boundary drops the tail of that page's naive share. -/
theorem c1_roundtrip_amended (html : Str) (u : Nat) (hu : 0 < u)
    (ht : trimList html ≠ [])
    (hsnap : ∀ i < pagesNeeded html u, snapAt html u i = false) :
    (splitIntoPages html u).flatten = html := by
  unfold splitIntoPages
  rw [if_neg ht]
  by_cases h2 : pagesNeeded html u = 1
  · simp [h2]
  · rw [if_neg h2]
    have hmap : List.map (pageFor html u) (List.range (pagesNeeded html u)) =
        List.map (naiveSlice html u) (List.range (pagesNeeded html u)) := by
      apply List.map_congr_left
      intro i hi
      have hib : i < pagesNeeded html u := List.mem_range.mp hi
      unfold pageFor
      rw [hsnap i hib]
      simp
    rw [hmap, flatten_naiveSlices]
    have hge : html.length ≤ pagesNeeded html u * shareOf html u :=
      le_mul_ceilDiv (pagesNeeded_pos html u)
    rw [Nat.min_eq_right hge]
    exact List.take_length html

/-- Witness for C1 at html `"hi"`, pageUnit 1123 (single page, no snap). -/
theorem c1_roundtrip_amended_witness :
    (splitIntoPages "hi".toList 1123).flatten = "hi".toList :=
  c1_roundtrip_amended "hi".toList 1123 (by decide) (by decide) (by decide)

/-! ## String-scanning helper lemmas -/

theorem firstIdxOf_lt : ∀ {s : Str} {c : Char} {q : Nat},
    firstIdxOf c s = some q → q < s.length := by
  intro s
  induction s with
  | nil => intro c q h; simp [firstIdxOf] at h
  | cons d ds ih =>
    intro c q h
    simp only [firstIdxOf] at h
    split at h
    · simp at h
      simp only [List.length_cons]
      omega
    · simp only [Option.map_eq_some'] at h
      obtain ⟨q0, hq0, rfl⟩ := h
      have := ih hq0
      simp only [List.length_cons]
      omega

theorem isPrefixOf_len {p s : Str} (h : p.isPrefixOf s = true) : p.length ≤ s.length :=
  List.IsPrefix.length_le ( List.isPrefixOf_iff_prefix.mp h)

theorem searchOpener_bounds : ∀ {s : Str} {p l : Nat},
    searchOpener s = some (p, l) → 4 ≤ l ∧ p + l ≤ s.length := by
  intro s
  induction s with
  | nil => intro p l h; simp [searchOpener] at h
  | cons c cs ih =>
    intro p l h
    simp only [searchOpener] at h
    split at h
    · cases hq : firstIdxOf quoteC ((c :: cs).drop 3) with
      | some q =>
        rw [hq] at h
        simp at h
        obtain ⟨rfl, rfl⟩ := h
        have hqb := firstIdxOf_lt hq
        simp only [List.length_drop, List.length_cons] at hqb
        constructor
        · omega
        · simp only [List.length_cons]
          omega
      | none =>
        rw [hq] at h
        simp only [Option.map_eq_some'] at h
        obtain ⟨⟨p0, l0⟩, hso, heq⟩ := h
        have hb := ih hso
        simp only [Prod.mk.injEq] at heq
        obtain ⟨rfl, rfl⟩ := heq
        simp only [List.length_cons]
        omega
    · simp only [Option.map_eq_some'] at h
      obtain ⟨⟨p0, l0⟩, hso, heq⟩ := h
      have hb := ih hso
      simp only [Prod.mk.injEq] at heq
      obtain ⟨rfl, rfl⟩ := heq
      simp only [List.length_cons]
      omega

theorem firstOccur_bound : ∀ {t : Str} {pat : Str} {i : Nat},
    firstOccur pat t = some i → i + pat.length ≤ t.length := by
  intro t
  induction t with
  | nil =>
    intro pat i h
    simp only [firstOccur] at h
    split at h
    · rename_i hp
      simp at h
      have := isPrefixOf_len hp
      omega
    · simp at h
  | cons c cs ih =>
    intro pat i h
    simp only [firstOccur] at h
    split at h
    · rename_i hp
      simp at h
      have := isPrefixOf_len hp
      omega
    · simp only [Option.map_eq_some'] at h
      obtain ⟨i0, hi0, rfl⟩ := h
      have := ih hi0
      simp only [List.length_cons]
      omega

theorem firstOccur_occursAt : ∀ {t : Str} {pat : Str} {i : Nat},
    firstOccur pat t = some i → occursAt pat t i = true := by
  intro t
  induction t with
  | nil =>
    intro pat i h
    simp only [firstOccur] at h
    split at h
    · rename_i hp
      simp at h
      subst h
      exact hp
    · simp at h
  | cons c cs ih =>
    intro pat i h
    simp only [firstOccur] at h
    split at h
    · rename_i hp
      simp at h
      subst h
      exact hp
    · simp only [Option.map_eq_some'] at h
      obtain ⟨i0, hi0, rfl⟩ := h
      have := ih hi0
      simpa [occursAt, List.drop_succ_cons] using this

theorem fmctStep_progress {t : Str} {i d i' d' : Nat}
    (h : fmctStep t i d = Sum.inl (i', d')) : i < i' ∧ i < t.length := by
  unfold fmctStep at h
  split at h
  · rename_i hin
    refine ⟨?_, hin.1⟩
    split at h
    · rename_i op ol cm ho hcm
      have hb := searchOpener_bounds ho
      split at h
      · simp only [Sum.inl.injEq, Prod.mk.injEq] at h
        omega
      · split at h
        · cases h
        · simp only [Sum.inl.injEq, Prod.mk.injEq] at h
          omega
    · rename_i op ol ho hcm
      have hb := searchOpener_bounds ho
      simp only [Sum.inl.injEq, Prod.mk.injEq] at h
      omega
    · rename_i cm ho hcm
      split at h
      · cases h
      · simp only [Sum.inl.injEq, Prod.mk.injEq] at h
        omega
    · cases h
  · cases h

theorem fmctStep_inr_some {t : Str} {i d j : Nat}
    (h : fmctStep t i d = Sum.inr (some j)) : occursAt closerPat t j = true := by
  unfold fmctStep at h
  split at h
  · split at h
    · rename_i op ol cm ho hcm
      split at h
      · cases h
      · split at h
        · simp only [Sum.inr.injEq, Option.some.injEq] at h
          subst h
          have := firstOccur_occursAt hcm
          simpa [occursAt, List.drop_drop] using this
        · cases h
    · rename_i op ol ho hcm
      cases h
    · rename_i cm ho hcm
      split at h
      · simp only [Sum.inr.injEq, Option.some.injEq] at h
        subst h
        have := firstOccur_occursAt hcm
        simpa [occursAt, List.drop_drop] using this
      · cases h
    · simp at h
  · simp at h

theorem fmctLoop_runs : ∀ (fuel : Nat) (t : Str) (i d : Nat),
    t.length - i < fuel → ∃ r, fmctLoop t fuel i d = some r := by
  intro fuel
  induction fuel with
  | zero =>
    intro t i d h
    exact absurd h (by omega)
  | succ fuel ih =>
    intro t i d h
    simp only [fmctLoop]
    cases hs : fmctStep t i d with
    | inr r => exact ⟨r, rfl⟩
    | inl st =>
      obtain ⟨i', d'⟩ := st
      have := fmctStep_progress hs
      exact ih t i' d' (by omega)

theorem fmctLoop_closer : ∀ (fuel : Nat) (t : Str) (i d j : Nat),
    fmctLoop t fuel i d = some (some j) → occursAt closerPat t j = true := by
  intro fuel
  induction fuel with
  | zero =>
    intro t i d j h
    simp [fmctLoop] at h
  | succ fuel ih =>
    intro t i d j h
    simp only [fmctLoop] at h
    cases hs : fmctStep t i d with
    | inr r =>
      rw [hs] at h
      simp at h
      subst h
      exact fmctStep_inr_some hs
    | inl st =>
      obtain ⟨i', d'⟩ := st
      rw [hs] at h
      exact ih t i' d' j h

/-- C5: the Matcher's scan index strictly increases on every loop step, so
`findMatchingClosingTag` terminates for every text and start index — the
loop reaches a final answer within `length + 1` steps — and the answer is
either NoMatch (`none`, the source's `-1`) or the start index of a
closing marker `</>`. -/
theorem c5_matcher_termination (t : Str) (i : Nat) :
    (∀ d i' d', fmctStep t i d = Sum.inl (i', d') → i < i') ∧
    ∃ r, fmctLoop t (t.length + 1) i 1 = some r ∧
      findMatchingClosingTag t i = r ∧
      (r = none ∨ ∃ j, r = some j ∧ occursAt closerPat t j = true) := by
  constructor
  · intro d i' d' h
    exact (fmctStep_progress h).1
  · obtain ⟨r, hr⟩ := fmctLoop_runs (t.length + 1) t i 1 (by omega)
    refine ⟨r, hr, ?_, ?_⟩
    · unfold findMatchingClosingTag
      rw [hr]
      rfl
    · cases r with
      | none => exact Or.inl rfl
      | some j => exact Or.inr ⟨j, rfl, fmctLoop_closer _ t i 1 j hr⟩

/-- Witness for C5 at the text `a</>` scanned from index 0. -/
theorem c5_matcher_termination_witness :
    (∀ d i' d', fmctStep ("a".toList ++ closerPat) 0 d = Sum.inl (i', d') → 0 < i') ∧
    ∃ r, fmctLoop ("a".toList ++ closerPat) (("a".toList ++ closerPat).length + 1) 0 1 =
        some r ∧
      findMatchingClosingTag ("a".toList ++ closerPat) 0 = r ∧
      (r = none ∨ ∃ j, r = some j ∧ occursAt closerPat ("a".toList ++ closerPat) j = true) :=
  c5_matcher_termination ("a".toList ++ closerPat) 0

theorem isPrefixOf_append_self (p r : Str) : p.isPrefixOf (p ++ r) = true :=
   List.isPrefixOf_iff_prefix.mpr ⟨r, rfl⟩

theorem isPrefixOf_self (p : Str) : p.isPrefixOf p = true :=
   List.isPrefixOf_iff_prefix.mpr ⟨[], List.append_nil p⟩

theorem isPrefixOf_cons_head {c0 c : Char} {r cs : Str}
    (h : (c0 :: r).isPrefixOf (c :: cs) = true) : c0 = c ∧ r.isPrefixOf cs = true := by
  simpa [List.isPrefixOf, Bool.and_eq_true, beq_iff_eq] using h

theorem occursAt_false_of_head_notMem {c0 : Char} {r t : Str} {j : Nat}
    (hm : c0 ∉ t) : occursAt (c0 :: r) t j = false := by
  unfold occursAt
  cases hd : t.drop j with
  | nil => rfl
  | cons d ds =>
    have hdm : d ∈ t := List.mem_of_mem_drop (hd ▸ List.mem_cons_self d ds)
    have hne : (c0 == d) = false := beq_eq_false_iff_ne.mpr (fun e => hm (e ▸ hdm))
    simp [List.isPrefixOf, hne]

theorem occursAt_append_right {pat a b : Str} {j : Nat} (hj : a.length ≤ j) :
    occursAt pat (a ++ b) j = occursAt pat b (j - a.length) := by
  unfold occursAt
  have he : j = a.length + (j - a.length) := by omega
  rw [he, List.drop_append, Nat.add_sub_cancel_left]

theorem occursAt_append_left_head {c0 : Char} {r a b : Str} {j : Nat}
    (hm : c0 ∉ a) (hj : j < a.length) : occursAt (c0 :: r) (a ++ b) j = false := by
  unfold occursAt
  rw [List.drop_append_of_le_length (by omega)]
  cases hd : a.drop j with
  | nil =>
    have := List.length_drop j a ▸ congrArg List.length hd
    simp at this
    omega
  | cons d ds =>
    have hdm : d ∈ a := List.mem_of_mem_drop (hd ▸ List.mem_cons_self d ds)
    have hne : (c0 == d) = false := beq_eq_false_iff_ne.mpr (fun e => hm (e ▸ hdm))
    simp [List.isPrefixOf, hne]

theorem occursAt_of_ge_length {pat t : Str} {c0 : Char} {r : Str} (hp : pat = c0 :: r)
    {k : Nat} (h : t.length ≤ k) : occursAt pat t k = false := by
  unfold occursAt
  rw [List.drop_eq_nil_of_le h, hp]
  rfl

theorem firstOccur_min : ∀ {t pat : Str} {i : Nat},
    firstOccur pat t = some i → ∀ j, j < i → occursAt pat t j = false := by
  intro t
  induction t with
  | nil =>
    intro pat i h j hj
    simp only [firstOccur] at h
    split at h
    · simp at h
      omega
    · simp at h
  | cons c cs ih =>
    intro pat i h j hj
    simp only [firstOccur] at h
    split at h
    · simp at h
      omega
    · rename_i hp
      simp only [Option.map_eq_some'] at h
      obtain ⟨i0, hi0, rfl⟩ := h
      cases j with
      | zero =>
        simpa [occursAt] using Bool.not_eq_true _ |>.mp hp
      | succ j' =>
        have := ih hi0 j' (by omega)
        simpa [occursAt, List.drop_succ_cons] using this

theorem firstOccur_eq_some_of : ∀ {t pat : Str} {i : Nat},
    occursAt pat t i = true → (∀ j, j < i → occursAt pat t j = false) →
    firstOccur pat t = some i := by
  intro t
  induction t with
  | nil =>
    intro pat i h1 h2
    cases i with
    | zero =>
      simp only [firstOccur]
      rw [if_pos (by simpa [occursAt] using h1)]
    | succ i' =>
      exfalso
      have ha := h2 0 (by omega)
      simp only [occursAt, List.drop_nil] at h1 ha
      rw [h1] at ha
      cases ha
  | cons c cs ih =>
    intro pat i h1 h2
    cases i with
    | zero =>
      simp only [firstOccur]
      rw [if_pos (by simpa [occursAt] using h1)]
    | succ i' =>
      have h0 := h2 0 (by omega)
      simp only [occursAt, List.drop_zero] at h0
      simp only [firstOccur]
      rw [if_neg (by simp [h0])]
      have hrec : firstOccur pat cs = some i' := by
        apply ih
        · simpa [occursAt, List.drop_succ_cons] using h1
        · intro j hj
          have := h2 (j + 1) (by omega)
          simpa [occursAt, List.drop_succ_cons] using this
      rw [hrec]
      rfl

theorem firstOccur_eq_none_of : ∀ {t pat : Str},
    (∀ j, occursAt pat t j = false) → firstOccur pat t = none := by
  intro t
  induction t with
  | nil =>
    intro pat h
    simp only [firstOccur]
    rw [if_neg (by simpa [occursAt] using Bool.eq_false_iff.mp (h 0))]
  | cons c cs ih =>
    intro pat h
    simp only [firstOccur]
    rw [if_neg (by simpa [occursAt] using Bool.eq_false_iff.mp (h 0))]
    have : firstOccur pat cs = none := by
      apply ih
      intro j
      have := h (j + 1)
      simpa [occursAt, List.drop_succ_cons] using this
    rw [this]
    rfl

/-- An occurrence always yields `firstOccur = some` of some index. -/
theorem firstOccur_ex_of_occursAt : ∀ {t pat : Str} {j : Nat},
    occursAt pat t j = true → (firstOccur pat t).isSome = true := by
  intro t
  induction t with
  | nil =>
    intro pat j h
    simp only [occursAt, List.drop_nil] at h
    simp [firstOccur, h]
  | cons c cs ih =>
    intro pat j h
    simp only [firstOccur]
    split
    · rfl
    · cases j with
      | zero =>
        rename_i hp
        simp only [occursAt, List.drop_zero] at h
        exact absurd h hp
      | succ j' =>
        have := ih (show occursAt pat cs j' = true by simpa [occursAt, List.drop_succ_cons] using h)
        cases hfo : firstOccur pat cs with
        | none => rw [hfo] at this; cases this
        | some k => simp [hfo]

theorem firstOccur_of_infix_false {pat t : Str} (h : hasInfixB pat t = false) :
    ∀ j, occursAt pat t j = false := by
  intro j
  cases hocc : occursAt pat t j with
  | false => rfl
  | true =>
    exfalso
    have hs := firstOccur_ex_of_occursAt hocc
    unfold hasInfixB at h
    rw [h] at hs
    cases hs

theorem trimList_cons_ne {c : Char} {cs : Str} (h : isWS c = false) :
    trimList (c :: cs) ≠ [] := by
  unfold trimList
  intro he
  have h1 : List.dropWhile isWS (c :: cs) = c :: cs := by
    rw [List.dropWhile_cons, h]
    simp
  rw [h1] at he
  have h2 : List.dropWhile isWS ((c :: cs).reverse) = [] := by
    have := congrArg List.reverse he
    simpa using this
  have h3 := List.dropWhile_eq_nil_iff.mp h2 c (by simp)
  rw [h] at h3
  cases h3

theorem searchOpener_none_of : ∀ {t : Str},
    (∀ j, occursAt openerPat t j = false) → searchOpener t = none := by
  intro t
  induction t with
  | nil => intro _; rfl
  | cons c cs ih =>
    intro h
    simp only [searchOpener]
    rw [if_neg (by simpa [occursAt] using Bool.eq_false_iff.mp (h 0))]
    have hrec : searchOpener cs = none := by
      apply ih
      intro j
      have := h (j + 1)
      simpa [occursAt, List.drop_succ_cons] using this
    rw [hrec]
    rfl

theorem searchOpenerPlus_none_of : ∀ {t : Str},
    (∀ j, occursAt openerPat t j = false) → searchOpenerPlus t = none := by
  intro t
  induction t with
  | nil => intro _; rfl
  | cons c cs ih =>
    intro h
    simp only [searchOpenerPlus]
    rw [if_neg (by simpa [occursAt] using Bool.eq_false_iff.mp (h 0))]
    have hrec : searchOpenerPlus cs = none := by
      apply ih
      intro j
      have := h (j + 1)
      simpa [occursAt, List.drop_succ_cons] using this
    rw [hrec]
    rfl

theorem protectInlineAux_id : ∀ (fuel : Nat) {t : Str} (tbl : List Str),
    backtickC ∉ t → protectInlineAux fuel t tbl = (t, tbl) := by
  intro fuel
  induction fuel with
  | zero => intro t tbl _; rfl
  | succ fuel ih =>
    intro t tbl h
    cases t with
    | nil => rfl
    | cons c cs =>
      simp only [protectInlineAux]
      rw [if_neg (show ¬(c = backtickC) from fun e => h (by
        rw [← e]
        exact List.mem_cons_self c cs))]
      rw [ih tbl (fun e => h (List.mem_cons_of_mem c e))]

theorem tripleTick_not_prefixOf {c : Char} {cs : Str} (h : c ≠ backtickC) :
    tripleTick.isPrefixOf (c :: cs) = false := by
  cases hp : tripleTick.isPrefixOf (c :: cs) with
  | false => rfl
  | true =>
    have := (isPrefixOf_cons_head hp).1
    exact absurd this.symm h

theorem protectFencedAux_id : ∀ (fuel : Nat) {t : Str} (tbl : List Str),
    backtickC ∉ t → protectFencedAux fuel t tbl = (t, tbl) := by
  intro fuel
  induction fuel with
  | zero => intro t tbl _; rfl
  | succ fuel ih =>
    intro t tbl h
    cases t with
    | nil => rfl
    | cons c cs =>
      simp only [protectFencedAux]
      rw [if_neg (by
        rw [tripleTick_not_prefixOf (fun e => h (e ▸ List.mem_cons_self c cs))]
        simp)]
      rw [ih tbl (fun e => h (List.mem_cons_of_mem c e))]

theorem protectCodeBlocks_id {t : Str} (h : backtickC ∉ t) :
    protectCodeBlocks t = (t, []) := by
  unfold protectCodeBlocks
  rw [protectInlineAux_id t.length [] h]
  exact protectFencedAux_id t.length [] h

theorem restorePiece_nil (pre t : Str) :
    restorePiece pre [] t =
      t.take (pre.length + ((t.drop pre.length).takeWhile isDigitC).length + 2) := rfl

theorem restoreAux_nil_tbl : ∀ (fuel : Nat) (pre t : Str),
    restoreAux pre [] fuel t = t := by
  intro fuel
  induction fuel with
  | zero => intro pre t; rfl
  | succ fuel ih =>
    intro pre t
    cases t with
    | nil => rfl
    | cons c cs =>
      simp only [restoreAux]
      split
      · split
        · rw [restorePiece_nil, ih]
          exact List.take_append_drop _ _
        · rw [ih]
      · rw [ih]

theorem restoreCodeBlocks_nil_tbl (t : Str) : restoreCodeBlocks t [] = t := by
  unfold restoreCodeBlocks
  rw [restoreAux_nil_tbl, restoreAux_nil_tbl]

theorem processAngleBlocks_no_opener {bridge recurse : Str → Str} {t : Str}
    (h : searchOpenerPlus t = none) : processAngleBlocks bridge recurse t = t := by
  unfold processAngleBlocks
  rw [h]

theorem angleLoop_fix {step : Str → Str} {t : Str} (h : step t = t) :
    ∀ k, angleLoop step k t = t := by
  intro k
  cases k with
  | zero => rfl
  | succ k =>
    simp only [angleLoop]
    rw [if_pos h]

theorem processAllBlocks_id {bridge : Str → Str} {t : Str}
    (hb : backtickC ∉ t) (ho : hasInfixB openerPat t = false) :
    ∀ fuel, processAllBlocks bridge fuel t = t := by
  intro fuel
  cases fuel with
  | zero => rfl
  | succ fuel =>
    simp only [processAllBlocks]
    rw [protectCodeBlocks_id hb]
    have hstep : ∀ recurse,
        processAngleBlocks bridge recurse t = t := fun recurse =>
      processAngleBlocks_no_opener (searchOpenerPlus_none_of (firstOccur_of_infix_false ho))
    rw [angleLoop_fix (hstep _) 20, ho]
    simp only [Bool.false_eq_true, if_neg]
    exact restoreCodeBlocks_nil_tbl t

/-- C3 counterexample: the document `<div class="a">x</div>` is non-empty
and contains no decorated-block opening marker, yet `parse` copies the div
region verbatim without ever invoking the Bridge, so for a bridge that
changes its argument the output differs from `bridge(document)`. -/
theorem c3_noop_counterexample :
    trimList "<div class=\"a\">x</div>".toList ≠ [] ∧
    hasInfixB openerPat "<div class=\"a\">x</div>".toList = false ∧
    parse (fun s => 'R' :: s) "<div class=\"a\">x</div>".toList ≠
      (fun s => 'R' :: s) "<div class=\"a\">x</div>".toList := by
  decide

/-- C3 (amended): `parse(document) = bridge(document)` for every document
with non-whitespace content that contains no opening-marker prefix `<>'`,
no backtick, and no literal `<div class="` substring.  Documents with
literal div markup are partitioned instead (div regions bypass the
Bridge), and backticked text passes through the Code Guard, whose round
trip can alter it. -/
theorem c3_noop_amended (bridge : Str → Str) (t : Str)
    (h1 : trimList t ≠ [])
    (h2 : hasInfixB openerPat t = false)
    (h3 : backtickC ∉ t)
    (h4 : hasInfixB divMarker t = false) :
    parse bridge t = bridge t := by
  unfold parse
  rw [if_neg h1, processAllBlocks_id h3 h2]
  unfold splitByDivsAndProcessMarkdown
  have h5 : firstOccur divMarker t = none := by
    cases hfo : firstOccur divMarker t with
    | none => rfl
    | some k =>
      unfold hasInfixB at h4
      rw [hfo] at h4
      cases h4
  simp only [splitByDivsAux, h5]
  rw [if_neg h1]

/-- Witness for C3 at the document `# Title` with a bridge that prepends a
character. -/
theorem c3_noop_amended_witness :
    parse (fun s => 'R' :: s) "# Title".toList = (fun s => 'R' :: s) "# Title".toList :=
  c3_noop_amended (fun s => 'R' :: s) "# Title".toList (by decide) (by decide)
    (by decide) (by decide)

theorem firstIdxOf_append_self {c : Char} : ∀ {a : Str} (b : Str), c ∉ a →
    firstIdxOf c (a ++ c :: b) = some a.length := by
  intro a
  induction a with
  | nil =>
    intro b _
    simp [firstIdxOf]
  | cons d ds ih =>
    intro b h
    have hne : ¬(d = c) := fun e => h (by rw [e]; exact List.mem_cons_self c ds)
    show firstIdxOf c (d :: (ds ++ c :: b)) = some (ds.length + 1)
    rw [firstIdxOf, if_neg hne, ih b (fun e => h (List.mem_cons_of_mem d e))]
    rfl

theorem drop_opener {X : Str} : (openerPat ++ X).drop 3 = X := by
  have h : openerPat.length = 3 := rfl
  rw [← h]
  exact List.drop_left openerPat X

theorem drop_cons_append {a b : Str} {c : Char} :
    (a ++ c :: b).drop (a.length + 1) = b := by
  have := @List.drop_append Char a (c :: b) 1
  simpa using this

theorem drop_opener_quote {cls rest : Str} :
    (openerPat ++ (cls ++ quoteC :: rest)).drop (3 + cls.length + 1) = rest := by
  have h1 : 3 + cls.length + 1 = 3 + (cls.length + 1) := by omega
  rw [h1, ← List.drop_drop, drop_opener, drop_cons_append]

theorem head_pat_not_prefixOf {c0 c : Char} {r cs : Str} (h : c0 ≠ c) :
    (c0 :: r).isPrefixOf (c :: cs) = false := by
  cases hp : (c0 :: r).isPrefixOf (c :: cs) with
  | false => rfl
  | true => exact absurd (isPrefixOf_cons_head hp).1 h

theorem searchOpenerPlus_at_zero {cls : Str} (rest : Str) (h1 : cls ≠ [])
    (h2 : quoteC ∉ cls) :
    searchOpenerPlus (openerPat ++ (cls ++ quoteC :: rest)) =
      some (0, 3 + cls.length + 1) := by
  show searchOpenerPlus ('<' :: '>' :: quoteC :: (cls ++ quoteC :: rest)) = _
  rw [searchOpenerPlus]
  have hpre : List.isPrefixOf openerPat ('<' :: '>' :: quoteC :: (cls ++ quoteC :: rest)) =
      true := isPrefixOf_append_self openerPat (cls ++ quoteC :: rest)
  rw [if_pos hpre]
  rw [show List.drop 3 ('<' :: '>' :: quoteC :: (cls ++ quoteC :: rest)) =
      cls ++ quoteC :: rest from rfl]
  rw [firstIdxOf_append_self rest h2]
  have hne : ¬(cls.length = 0) := by
    cases cls with
    | nil => exact absurd rfl h1
    | cons _ _ => simp
  simp [hne]

theorem lazyScanLen_no_marker : ∀ {t : Str},
    (∀ j, occursAt openerPat t j = false) → (∀ j, occursAt closerPat t j = false) →
    lazyScanLen t = t.length := by
  intro t
  induction t with
  | nil => intro _ _; rfl
  | cons c cs ih =>
    intro ho hc
    simp only [lazyScanLen]
    rw [if_neg (by
      have h1 := ho 0
      have h2 := hc 0
      simp only [occursAt, List.drop_zero] at h1 h2
      simp [h1, h2])]
    rw [ih (fun j => by
        have := ho (j + 1)
        simpa [occursAt, List.drop_succ_cons] using this)
      (fun j => by
        have := hc (j + 1)
        simpa [occursAt, List.drop_succ_cons] using this)]
    simp only [List.length_cons]
    omega

theorem stripAngleAux_nil : ∀ fuel, stripAngleAux fuel [] = [] := by
  intro fuel
  cases fuel <;> rfl

theorem stripHeadMatch_full {cls content : Str} (h2 : quoteC ∉ cls)
    (h3a : ∀ j, occursAt openerPat content j = false)
    (h3b : ∀ j, occursAt closerPat content j = false) :
    stripHeadMatch (openerPat ++ (cls ++ quoteC :: content)) =
      some ((openerPat ++ (cls ++ quoteC :: content)).length) := by
  unfold stripHeadMatch
  rw [if_pos (isPrefixOf_append_self openerPat (cls ++ quoteC :: content))]
  rw [drop_opener, firstIdxOf_append_self content h2]
  show some (3 + cls.length + 1 +
      lazyScanLen ((openerPat ++ (cls ++ quoteC :: content)).drop (3 + cls.length + 1))) =
    some ((openerPat ++ (cls ++ quoteC :: content)).length)
  rw [drop_opener_quote, lazyScanLen_no_marker h3a h3b]
  have hl : (openerPat ++ (cls ++ quoteC :: content)).length =
      3 + cls.length + 1 + content.length := by
    simp [openerPat]
    omega
  rw [hl]

theorem stripAngleAux_total {fuel : Nat} {t : Str} (h0 : 0 < fuel)
    (hm : stripHeadMatch t = some t.length) (ht : t ≠ []) :
    stripAngleAux fuel t = [] := by
  obtain ⟨f, rfl⟩ : ∃ f, fuel = f + 1 := ⟨fuel - 1, by omega⟩
  cases t with
  | nil => exact absurd rfl ht
  | cons c cs =>
    simp only [stripAngleAux, hm]
    have hmax : max (c :: cs).length 1 = (c :: cs).length := by
      simp only [List.length_cons]
      omega
    rw [hmax, List.drop_length]
    exact stripAngleAux_nil f

theorem firstOccur_of_isPrefixOf {pat t : Str} (h : pat.isPrefixOf t = true) :
    firstOccur pat t = some 0 := by
  cases t with
  | nil => simp [firstOccur, h]
  | cons c cs => simp [firstOccur, h]

theorem fmct_none_of {t : Str} {i : Nat} (h1 : searchOpener (t.drop i) = none)
    (h2 : firstOccur closerPat (t.drop i) = none) :
    findMatchingClosingTag t i = none := by
  have hstep : fmctStep t i 1 = Sum.inr none := by
    unfold fmctStep
    split
    · rw [h1, h2]
    · rfl
  unfold findMatchingClosingTag
  simp only [fmctLoop, hstep]
  rfl

theorem fmct_close_at {t : Str} {i cm : Nat} (hi : i < t.length)
    (h1 : searchOpener (t.drop i) = none)
    (h2 : firstOccur closerPat (t.drop i) = some cm) :
    findMatchingClosingTag t i = some (i + cm) := by
  have hstep : fmctStep t i 1 = Sum.inr (some (i + cm)) := by
    unfold fmctStep
    rw [if_pos ⟨hi, by omega⟩, h1, h2]
    simp
  unfold findMatchingClosingTag
  simp only [fmctLoop, hstep]
  rfl

theorem removeClosers_nil : removeClosers [] = [] := rfl

theorem processAllBlocks_unterminated (bridge : Str → Str) {cls content : Str}
    (h1 : cls ≠ []) (h2 : quoteC ∉ cls) (h3 : backtickC ∉ cls)
    (h4a : hasInfixB openerPat content = false)
    (h4b : hasInfixB closerPat content = false)
    (h5 : backtickC ∉ content) :
    ∀ fuel, 0 < fuel →
      processAllBlocks bridge fuel (openerPat ++ (cls ++ quoteC :: content)) = [] := by
  intro fuel hf
  obtain ⟨f, rfl⟩ : ∃ f, fuel = f + 1 := ⟨fuel - 1, by omega⟩
  simp only [processAllBlocks]
  have hbt : backtickC ∉ (openerPat ++ (cls ++ quoteC :: content)) := by
    intro hm
    rcases List.mem_append.mp hm with h | h
    · simp [openerPat] at h
      rcases h with h | h | h <;> revert h <;> decide
    · rcases List.mem_append.mp h with h | h
      · exact h3 h
      · rcases List.mem_cons.mp h with h | h
        · revert h; decide
        · exact h5 h
  rw [protectCodeBlocks_id hbt]
  have hso := searchOpenerPlus_at_zero content h1 h2
  have hdropi : (openerPat ++ (cls ++ quoteC :: content)).drop (0 + (3 + cls.length + 1)) =
      content := by
    rw [Nat.zero_add]
    exact drop_opener_quote
  have hfm : findMatchingClosingTag (openerPat ++ (cls ++ quoteC :: content))
      (0 + (3 + cls.length + 1)) = none := by
    apply fmct_none_of
    · rw [hdropi]
      exact searchOpener_none_of (firstOccur_of_infix_false h4a)
    · rw [hdropi]
      exact firstOccur_eq_none_of (firstOccur_of_infix_false h4b)
  have hstep : ∀ recurse, processAngleBlocks bridge recurse
      (openerPat ++ (cls ++ quoteC :: content)) =
      openerPat ++ (cls ++ quoteC :: content) := by
    intro recurse
    simp only [processAngleBlocks, hso, hfm]
  rw [angleLoop_fix (hstep _) 20]
  have hinf : hasInfixB openerPat (openerPat ++ (cls ++ quoteC :: content)) = true := by
    unfold hasInfixB
    rw [firstOccur_of_isPrefixOf (isPrefixOf_append_self _ _)]
    rfl
  rw [hinf, if_pos rfl]
  have hstrip : stripAngle (openerPat ++ (cls ++ quoteC :: content)) = [] := by
    unfold stripAngle
    apply stripAngleAux_total
    · simp [openerPat]
    · exact stripHeadMatch_full h2 (firstOccur_of_infix_false h4a)
        (firstOccur_of_infix_false h4b)
    · intro he
      have := congrArg List.length he
      simp [openerPat] at this
  rw [hstrip, removeClosers_nil]
  exact restoreCodeBlocks_nil_tbl []

/-- C4: for every unterminated angle block — an opening marker with a
non-empty class list followed by content that carries no further angle
marker (and no backtick, which would engage the Code Guard) — `parse`
terminates with the empty string: the recovery pass strips the dangling
opener together with its content, so the literal opener syntax never
reaches the output. -/
theorem c4_unterminated_block_safety (bridge : Str → Str) (cls content : Str)
    (h1 : cls ≠ []) (h2 : quoteC ∉ cls) (h3 : backtickC ∉ cls)
    (h4a : hasInfixB openerPat content = false)
    (h4b : hasInfixB closerPat content = false)
    (h5 : backtickC ∉ content) :
    parse bridge (openerPat ++ cls ++ [quoteC] ++ content) = [] ∧
    hasInfixB openerPat (parse bridge (openerPat ++ cls ++ [quoteC] ++ content)) = false := by
  have hassoc : openerPat ++ cls ++ [quoteC] ++ content =
      openerPat ++ (cls ++ quoteC :: content) := by
    simp
  rw [hassoc]
  have htrim : trimList (openerPat ++ (cls ++ quoteC :: content)) ≠ [] :=
    @trimList_cons_ne '<' _ (by decide)
  have hmain : parse bridge (openerPat ++ (cls ++ quoteC :: content)) = [] := by
    unfold parse
    rw [if_neg htrim]
    rw [processAllBlocks_unterminated bridge h1 h2 h3 h4a h4b h5 _ (by omega)]
    rfl
  exact ⟨hmain, by rw [hmain]; rfl⟩

/-- Witness for C4 at the input `<>'a' X` with an identity bridge. -/
theorem c4_unterminated_block_safety_witness :
    parse (fun s => s) (openerPat ++ "a".toList ++ [quoteC] ++ " X".toList) = [] ∧
    hasInfixB openerPat
      (parse (fun s => s) (openerPat ++ "a".toList ++ [quoteC] ++ " X".toList)) = false :=
  c4_unterminated_block_safety (fun s => s) "a".toList " X".toList (by decide) (by decide)
    (by decide) (by decide) (by decide) (by decide)

theorem opener_not_in_closer : ∀ k, occursAt openerPat closerPat k = false := by
  intro k
  match k with
  | 0 => decide
  | 1 => decide
  | 2 => decide
  | (n + 3) =>
    exact occursAt_of_ge_length rfl (by
      have h3 : closerPat.length = 3 := rfl
      omega)

theorem searchOpener_none_content_closer {content : Str} (h4 : '<' ∉ content) :
    searchOpener (content ++ closerPat) = none := by
  apply searchOpener_none_of
  intro j
  by_cases hj : j < content.length
  · exact occursAt_append_left_head h4 hj
  · rw [occursAt_append_right (by omega)]
    exact opener_not_in_closer _

theorem firstOccur_closer_content {content : Str} (h4 : '<' ∉ content) :
    firstOccur closerPat (content ++ closerPat) = some content.length := by
  apply firstOccur_eq_some_of
  · rw [occursAt_append_right (le_refl _), Nat.sub_self]
    decide
  · intro j hj
    exact occursAt_append_left_head h4 hj

/-- C9 counterexample: for the block `<>' a ' x</>` the emitted class
attribute is `class="a"`, not `class=" a "` — the class-list text is
trimmed before emission, so it is not contained verbatim in the output. -/
theorem c9_class_attr_counterexample :
    processAngleBlocks (fun s => s) (processAllBlocks (fun s => s) 1)
        (openerPat ++ " a ".toList ++ [quoteC] ++ " x".toList ++ closerPat) =
      "<div class=\"a\"> x</div>".toList ∧
    hasInfixB " a ".toList
      (processAngleBlocks (fun s => s) (processAllBlocks (fun s => s) 1)
        (openerPat ++ " a ".toList ++ [quoteC] ++ " x".toList ++ closerPat)) = false := by
  decide

/-- C9 (amended): a resolved block emits
`<div class="` trim(classList) `">` bridge(content) `</div>`: the class
attribute carries the class-list text with leading and trailing
whitespace removed, and otherwise verbatim — interior tokens in their
original order, never deduplicated, with no escaping or validation. -/
theorem c9_class_attr_amended (bridge : Str → Str) (fuel : Nat) (cls content : Str)
    (h1 : cls ≠ []) (h2 : quoteC ∉ cls) (h3 : '<' ∉ content) (h4 : backtickC ∉ content) :
    processAngleBlocks bridge (processAllBlocks bridge fuel)
        (openerPat ++ cls ++ [quoteC] ++ content ++ closerPat) =
      divOpen (trimList cls) ++ bridge content ++ divClosePat := by
  have hassoc : openerPat ++ cls ++ [quoteC] ++ content ++ closerPat =
      openerPat ++ (cls ++ quoteC :: (content ++ closerPat)) := by
    simp
  rw [hassoc]
  have hso := searchOpenerPlus_at_zero (content ++ closerPat) h1 h2
  have hlen : (openerPat ++ (cls ++ quoteC :: (content ++ closerPat))).length =
      3 + cls.length + 1 + content.length + 3 := by
    simp [openerPat, closerPat]
    omega
  have hdropi : (openerPat ++ (cls ++ quoteC :: (content ++ closerPat))).drop
      (0 + (3 + cls.length + 1)) = content ++ closerPat := by
    rw [Nat.zero_add]
    exact drop_opener_quote
  have hfm : findMatchingClosingTag (openerPat ++ (cls ++ quoteC :: (content ++ closerPat)))
      (0 + (3 + cls.length + 1)) =
      some (0 + (3 + cls.length + 1) + content.length) := by
    apply fmct_close_at
    · rw [hlen]
      omega
    · rw [hdropi]
      exact searchOpener_none_content_closer h3
    · rw [hdropi]
      exact firstOccur_closer_content h3
  simp only [processAngleBlocks, hso, hfm]
  have e1 : (openerPat ++ (cls ++ quoteC :: (content ++ closerPat))).take 0 = [] :=
    List.take_zero _
  have e2 : ((openerPat ++ (cls ++ quoteC :: (content ++ closerPat))).drop (0 + 3)).take
      (3 + cls.length + 1 - 4) = cls := by
    have ha : (0 + 3 : Nat) = 3 := by omega
    have hb : 3 + cls.length + 1 - 4 = cls.length := by omega
    rw [ha, hb, drop_opener]
    exact List.take_left cls (quoteC :: (content ++ closerPat))
  have e3 : ((openerPat ++ (cls ++ quoteC :: (content ++ closerPat))).drop
      (0 + (3 + cls.length + 1))).take
      (0 + (3 + cls.length + 1) + content.length - (0 + (3 + cls.length + 1))) =
      content := by
    rw [hdropi]
    have hb : 0 + (3 + cls.length + 1) + content.length - (0 + (3 + cls.length + 1)) =
        content.length := by omega
    rw [hb]
    exact List.take_left content closerPat
  have e4 : (openerPat ++ (cls ++ quoteC :: (content ++ closerPat))).drop
      (0 + (3 + cls.length + 1) + content.length + 4) = [] := by
    apply List.drop_eq_nil_of_le
    rw [hlen]
    omega
  have e5 : processAllBlocks bridge fuel content = content :=
    processAllBlocks_id h4 (by
      unfold hasInfixB
      rw [firstOccur_eq_none_of
        (show ∀ j, occursAt openerPat content j = false from
          fun j => occursAt_false_of_head_notMem h3)]
      rfl) fuel
  rw [e1, e2, e3, e4, e5]
  simp

/-- Witness for C9 at class list `" a "` and content `" x"`. -/
theorem c9_class_attr_amended_witness :
    processAngleBlocks (fun s => s) (processAllBlocks (fun s => s) 1)
        (openerPat ++ " a ".toList ++ [quoteC] ++ " x".toList ++ closerPat) =
      divOpen (trimList " a ".toList) ++ (fun s => s) " x".toList ++ divClosePat :=
  c9_class_attr_amended (fun s => s) 1 " a ".toList " x".toList (by decide) (by decide)
    (by decide) (by decide)

theorem hasInfixB_take_of_firstOccur {pat t : Str} {idx : Nat} (hp : pat ≠ [])
    (h : firstOccur pat t = some idx) : hasInfixB pat (t.take idx) = false := by
  have hall : ∀ j, occursAt pat (t.take idx) j = false := by
    intro j
    cases hocc : occursAt pat (t.take idx) j with
    | false => rfl
    | true =>
      exfalso
      unfold occursAt at hocc
      rw [List.drop_take] at hocc
      obtain ⟨r, hr⟩ :=  List.isPrefixOf_iff_prefix.mp hocc
      have hpre2 : pat.isPrefixOf (t.drop j) = true := by
        apply  List.isPrefixOf_iff_prefix.mpr
        exact ⟨r ++ (t.drop j).drop (idx - j), by
          rw [← List.append_assoc, hr, List.take_append_drop]⟩
      have hlenp : pat.length ≤ idx - j := by
        have h2 := congrArg List.length hr
        simp only [List.length_append, List.length_take] at h2
        have h3 := Nat.min_le_left (idx - j) (t.drop j).length
        omega
      have hjlt : j < idx := by
        have hpl : 0 < pat.length := by
          cases pat with
          | nil => exact absurd rfl hp
          | cons _ _ => simp
        omega
      have hmin := firstOccur_min h j hjlt
      unfold occursAt at hmin
      rw [hpre2] at hmin
      cases hmin
  unfold hasInfixB
  rw [firstOccur_eq_none_of hall]
  rfl

theorem splitByDivsAux_eq_segs (bridge : Str → Str) :
    ∀ (fuel : Nat) (t : Str), t.length < fuel →
      splitByDivsAux bridge fuel t =
        ((segmentDivsAux fuel t).map (renderSeg bridge)).flatten := by
  intro fuel
  induction fuel with
  | zero => intro t ht; exact absurd ht (by omega)
  | succ fuel ih =>
    intro t ht
    simp only [splitByDivsAux, segmentDivsAux]
    cases hfo : firstOccur divMarker t with
    | none => simp [renderSeg]
    | some idx =>
      cases hde : findMatchingDivEnd (t.drop idx) with
      | none => simp [hde, renderSeg]
      | some j =>
        have hb := firstOccur_bound hfo
        rw [show divMarker.length = 12 from rfl] at hb
        have hrec := ih ((t.drop idx).drop (j + 6)) (by
          simp only [List.length_drop]
          omega)
        simp only [hde, List.map_cons, List.flatten_cons, renderSeg]
        rw [hrec]

theorem segmentDivsAux_tiling :
    ∀ (fuel : Nat) (t : Str), t.length < fuel →
      ((segmentDivsAux fuel t).map rawSeg).flatten = t := by
  intro fuel
  induction fuel with
  | zero => intro t ht; exact absurd ht (by omega)
  | succ fuel ih =>
    intro t ht
    simp only [segmentDivsAux]
    cases hfo : firstOccur divMarker t with
    | none => simp [rawSeg]
    | some idx =>
      cases hde : findMatchingDivEnd (t.drop idx) with
      | none =>
        simp only [hde, List.map_cons, List.map_nil, List.flatten_cons, List.flatten_nil,
          rawSeg, List.append_nil]
        exact List.take_append_drop idx t
      | some j =>
        have hb := firstOccur_bound hfo
        rw [show divMarker.length = 12 from rfl] at hb
        have hrec := ih ((t.drop idx).drop (j + 6)) (by
          simp only [List.length_drop]
          omega)
        simp only [hde, List.map_cons, List.flatten_cons, rawSeg]
        rw [hrec, List.take_append_drop (j + 6) (t.drop idx), List.take_append_drop idx t]

theorem segmentDivsAux_plain_no_marker :
    ∀ (fuel : Nat) (t : Str), t.length < fuel →
      ∀ s, Seg.plain s ∈ segmentDivsAux fuel t → hasInfixB divMarker s = false := by
  intro fuel
  induction fuel with
  | zero => intro t ht; exact absurd ht (by omega)
  | succ fuel ih =>
    intro t ht s hs
    simp only [segmentDivsAux] at hs
    cases hfo : firstOccur divMarker t with
    | none =>
      rw [hfo] at hs
      simp at hs
      subst hs
      unfold hasInfixB
      rw [hfo]
      rfl
    | some idx =>
      rw [hfo] at hs
      cases hde : findMatchingDivEnd (t.drop idx) with
      | none =>
        simp only [hde] at hs
        rcases List.mem_cons.mp hs with hs | hs
        · injection hs with hs
          subst hs
          exact hasInfixB_take_of_firstOccur (by decide) hfo
        · simp at hs
      | some j =>
        simp only [hde] at hs
        rcases List.mem_cons.mp hs with hs | hs
        · injection hs with hs
          subst hs
          exact hasInfixB_take_of_firstOccur (by decide) hfo
        · rcases List.mem_cons.mp hs with hs | hs
          · cases hs
          · have hb := firstOccur_bound hfo
            rw [show divMarker.length = 12 from rfl] at hb
            exact ih ((t.drop idx).drop (j + 6)) (by
              simp only [List.length_drop]
              omega) s hs

/-- C2: `splitByDivsAndProcessMarkdown` realises an opaque-container
partitioning.  The input tiles into segments (their raw concatenation is
the input); when no broken tail exists (every div marker has a
depth-matched close, as is the case once all decorated blocks are
resolved to balanced container markup), the output is exactly the
segment-wise rendering in which div regions are copied verbatim and only
the remaining spans are passed to the Bridge — and every span handed to
the Bridge contains no `<div class="` marker at all, so rendered
container markup (including nested containers inside a region) is never
re-submitted. -/
theorem c2_opaque_partitioning (bridge : Str → Str) (t : Str)
    (h : (segmentDivs t).all (fun s => !isBroken s) = true) :
    splitByDivsAndProcessMarkdown bridge t =
        ((segmentDivs t).map (renderSeg bridge)).flatten ∧
      ((segmentDivs t).map rawSeg).flatten = t ∧
      ∀ s, (Seg.plain s ∈ segmentDivs t ∨ Seg.broken s ∈ segmentDivs t) →
        hasInfixB divMarker s = false := by
  refine ⟨splitByDivsAux_eq_segs bridge (t.length + 1) t (by omega),
    segmentDivsAux_tiling (t.length + 1) t (by omega), ?_⟩
  intro s hs
  rcases hs with hs | hs
  · exact segmentDivsAux_plain_no_marker (t.length + 1) t (by omega) s hs
  · have hb := List.all_eq_true.mp h _ hs
    simp [isBroken] at hb

/-- Witness for C2 at the text `A <div class="x">B</div> C` with a
bridge that parenthesises its argument. -/
theorem c2_opaque_partitioning_witness :
    splitByDivsAndProcessMarkdown (fun s => '(' :: (s ++ [')']))
        "A <div class=\"x\">B</div> C".toList =
        ((segmentDivs "A <div class=\"x\">B</div> C".toList).map
          (renderSeg (fun s => '(' :: (s ++ [')'])))).flatten ∧
      ((segmentDivs "A <div class=\"x\">B</div> C".toList).map rawSeg).flatten =
        "A <div class=\"x\">B</div> C".toList ∧
      ∀ s, (Seg.plain s ∈ segmentDivs "A <div class=\"x\">B</div> C".toList ∨
          Seg.broken s ∈ segmentDivs "A <div class=\"x\">B</div> C".toList) →
        hasInfixB divMarker s = false :=
  c2_opaque_partitioning (fun s => '(' :: (s ++ [')']))
    "A <div class=\"x\">B</div> C".toList (by decide)

/-- C8: the Code Guard's round trip is broken.  For the input
````` x ```` ` (four backticks, ` x `, four backticks) — which contains no
placeholder pattern — the inline pass protects the inner `` ` x ` ``, the
fenced pass then swallows the inline placeholder, and because
`restoreCodeBlocks` restores inline placeholders before fenced ones the
final text leaks the literal `__INLINE_CODE_0__` instead of restoring the
original: the substitution is not reversible. -/
theorem c8_code_guard_round_trip_bug :
    containsPH "```` x ````".toList = false ∧
    restoreCodeBlocks (protectCodeBlocks "```` x ````".toList).1
        (protectCodeBlocks "```` x ````".toList).2 = "```__INLINE_CODE_0__```".toList ∧
    restoreCodeBlocks (protectCodeBlocks "```` x ````".toList).1
        (protectCodeBlocks "```` x ````".toList).2 ≠ "```` x ````".toList := by
  decide

end MarkOver
